import Mathlib

/-!
Verification of the net-topology core of the `delayed-routing` repository
(`src/components.rs`): geometry primitives, direction classification, the
naming scheme, junction-tree construction and net serialization, embedded
shallowly in Lean 4.  `usize` values are modelled as `Nat` (with the
underflow of `0 - 1` and the sentinel `usize::MAX` made explicit where the
code depends on them); strings are modelled as lists of characters (all
relevant data is ASCII, so byte indexing and character indexing agree);
fallible or panicking code paths return `Option` or an explicit outcome
type.
-/

/-- Direction classification result, from `enum Towards` in `components.rs`. -/
inductive Towards
  | Up
  | Down
  | Left
  | Right
  | Top
  | Bottom
deriving DecidableEq, Repr

/-- `Pair<T>`: a 2-dimensional tuple `(x, y)`. -/
structure Pair (α : Type) where
  x : α
  y : α
deriving DecidableEq, Repr

/-- `Point<T>`: a 3-dimensional tuple `(row, col, lay)`. -/
structure Point (α : Type) where
  row : α
  col : α
  lay : α
deriving DecidableEq, Repr

/-- `Route<T>`: a source point and a target point. -/
structure Route (α : Type) where
  source : Point α
  target : Point α
deriving DecidableEq, Repr

/-- `Point::flatten`: drop the layer coordinate. -/
def Point.flatten {α : Type} (p : Point α) : Pair α :=
  ⟨p.row, p.col⟩

/-- `Pair::with`: attach a layer coordinate (named `with` in the source,
which is a reserved word in Lean). -/
def Pair.withLay {α : Type} (p : Pair α) (lay : α) : Point α :=
  ⟨p.x, p.y, lay⟩

/-- `Route::vector` for `Route<usize>`: componentwise signed difference
`target - source` (the source casts each `usize` to `isize`). -/
def Route.vector (r : Route Nat) : Point Int :=
  ⟨(r.target.row : Int) - (r.source.row : Int),
   (r.target.col : Int) - (r.source.col : Int),
   (r.target.lay : Int) - (r.source.lay : Int)⟩

/-- `Route::towards`: classify the single non-zero axis of the displacement.
The source's `unreachable!()` branches (all-zero or multi-axis displacement)
are modelled as `none`; the match arms are translated in source order. -/
def Route.towards (r : Route Nat) : Option Towards :=
  let v := r.vector
  if v.row = 0 ∧ v.col = 0 ∧ v.lay = 0 then none
  else if v.col = 0 ∧ v.lay = 0 then some (if 0 < v.row then .Up else .Down)
  else if v.row = 0 ∧ v.lay = 0 then some (if 0 < v.col then .Right else .Left)
  else if v.row = 0 ∧ v.col = 0 then some (if 0 < v.lay then .Top else .Bottom)
  else none

/-- `Towards::inv`: the opposite direction. -/
def Towards.inv : Towards → Towards
  | .Up => .Down
  | .Down => .Up
  | .Left => .Right
  | .Right => .Left
  | .Top => .Bottom
  | .Bottom => .Top

/-- A route is axis-aligned when exactly one coordinate of `target - source`
is non-zero (the invariant stated for `Route` in the spec). -/
def AxisAligned (r : Route Nat) : Prop :=
  (r.vector.row ≠ 0 ∧ r.vector.col = 0 ∧ r.vector.lay = 0) ∨
  (r.vector.row = 0 ∧ r.vector.col ≠ 0 ∧ r.vector.lay = 0) ∨
  (r.vector.row = 0 ∧ r.vector.col = 0 ∧ r.vector.lay ≠ 0)

instance (r : Route Nat) : Decidable (AxisAligned r) := by
  unfold AxisAligned; infer_instance

/-- The reversed route: source and target swapped. -/
def Route.reverse (r : Route Nat) : Route Nat :=
  ⟨r.target, r.source⟩

theorem Route.vector_reverse_row (r : Route Nat) :
    r.reverse.vector.row = -r.vector.row := by
  simp only [Route.reverse, Route.vector]; omega

theorem Route.vector_reverse_col (r : Route Nat) :
    r.reverse.vector.col = -r.vector.col := by
  simp only [Route.reverse, Route.vector]; omega

theorem Route.vector_reverse_lay (r : Route Nat) :
    r.reverse.vector.lay = -r.vector.lay := by
  simp only [Route.reverse, Route.vector]; omega

theorem Towards.inv_inv (t : Towards) : t.inv.inv = t := by
  cases t <;> rfl

theorem Route.towards_up (r : Route Nat) (h1 : 0 < r.vector.row)
    (h2 : r.vector.col = 0) (h3 : r.vector.lay = 0) : r.towards = some .Up := by
  simp only [Route.towards]
  rw [if_neg (by omega), if_pos ⟨h2, h3⟩, if_pos h1]

theorem Route.towards_down (r : Route Nat) (h1 : r.vector.row < 0)
    (h2 : r.vector.col = 0) (h3 : r.vector.lay = 0) : r.towards = some .Down := by
  simp only [Route.towards]
  rw [if_neg (by omega), if_pos ⟨h2, h3⟩, if_neg (by omega)]

theorem Route.towards_right (r : Route Nat) (h1 : r.vector.row = 0)
    (h2 : 0 < r.vector.col) (h3 : r.vector.lay = 0) : r.towards = some .Right := by
  simp only [Route.towards]
  rw [if_neg (by omega), if_neg (by omega), if_pos ⟨h1, h3⟩, if_pos h2]

theorem Route.towards_left (r : Route Nat) (h1 : r.vector.row = 0)
    (h2 : r.vector.col < 0) (h3 : r.vector.lay = 0) : r.towards = some .Left := by
  simp only [Route.towards]
  rw [if_neg (by omega), if_neg (by omega), if_pos ⟨h1, h3⟩, if_neg (by omega)]

theorem Route.towards_top (r : Route Nat) (h1 : r.vector.row = 0)
    (h2 : r.vector.col = 0) (h3 : 0 < r.vector.lay) : r.towards = some .Top := by
  simp only [Route.towards]
  rw [if_neg (by omega), if_neg (by omega), if_neg (by omega), if_pos ⟨h1, h2⟩,
    if_pos h3]

theorem Route.towards_bottom (r : Route Nat) (h1 : r.vector.row = 0)
    (h2 : r.vector.col = 0) (h3 : r.vector.lay < 0) : r.towards = some .Bottom := by
  simp only [Route.towards]
  rw [if_neg (by omega), if_neg (by omega), if_neg (by omega), if_pos ⟨h1, h2⟩,
    if_neg (by omega)]

theorem Route.towards_not_axis_aligned (r : Route Nat) (h : ¬ AxisAligned r) :
    r.towards = none := by
  simp only [Route.towards]
  split_ifs with h1 h2 h3 h4
  · rfl
  · exact absurd (Or.inl ⟨fun hr => h1 ⟨hr, h2.1, h2.2⟩, h2.1, h2.2⟩) h
  · exact absurd (Or.inr (Or.inl ⟨h3.1, fun hc => h1 ⟨h3.1, hc, h3.2⟩, h3.2⟩)) h
  · exact absurd (Or.inr (Or.inr ⟨h4.1, h4.2, fun hl => h1 ⟨h4.1, h4.2, hl⟩⟩)) h
  · rfl

/-- C8: for every axis-aligned `Route`, the direction of the route followed
by `inv()` equals the direction of the reversed route, and `inv()` is an
involution pairing opposite directions. -/
theorem towards_inv_eq_reverse_towards :
    (∀ r : Route Nat, AxisAligned r →
        r.towards.map Towards.inv = r.reverse.towards) ∧
    (∀ t : Towards, t.inv.inv = t) := by
  refine ⟨fun r h => ?_, Towards.inv_inv⟩
  rcases h with ⟨h1, h2, h3⟩ | ⟨h1, h2, h3⟩ | ⟨h1, h2, h3⟩
  · rcases lt_or_gt_of_ne h1 with hs | hs
    · rw [Route.towards_down r hs h2 h3,
        Route.towards_up r.reverse (by rw [r.vector_reverse_row]; omega)
          (by rw [r.vector_reverse_col]; omega)
          (by rw [r.vector_reverse_lay]; omega)]
      rfl
    · rw [Route.towards_up r hs h2 h3,
        Route.towards_down r.reverse (by rw [r.vector_reverse_row]; omega)
          (by rw [r.vector_reverse_col]; omega)
          (by rw [r.vector_reverse_lay]; omega)]
      rfl
  · rcases lt_or_gt_of_ne h2 with hs | hs
    · rw [Route.towards_left r h1 hs h3,
        Route.towards_right r.reverse (by rw [r.vector_reverse_row]; omega)
          (by rw [r.vector_reverse_col]; omega)
          (by rw [r.vector_reverse_lay]; omega)]
      rfl
    · rw [Route.towards_right r h1 hs h3,
        Route.towards_left r.reverse (by rw [r.vector_reverse_row]; omega)
          (by rw [r.vector_reverse_col]; omega)
          (by rw [r.vector_reverse_lay]; omega)]
      rfl
  · rcases lt_or_gt_of_ne h3 with hs | hs
    · rw [Route.towards_bottom r h1 h2 hs,
        Route.towards_top r.reverse (by rw [r.vector_reverse_row]; omega)
          (by rw [r.vector_reverse_col]; omega)
          (by rw [r.vector_reverse_lay]; omega)]
      rfl
    · rw [Route.towards_top r h1 h2 hs,
        Route.towards_bottom r.reverse (by rw [r.vector_reverse_row]; omega)
          (by rw [r.vector_reverse_col]; omega)
          (by rw [r.vector_reverse_lay]; omega)]
      rfl

/-- C8 witness: the example route `(0,0,1) → (0,3,1)` is axis-aligned and the
direction-inverse law holds for it. -/
theorem towards_inv_eq_reverse_towards_witness :
    AxisAligned ⟨⟨0, 0, 1⟩, ⟨0, 3, 1⟩⟩ ∧
      (Route.towards ⟨⟨0, 0, 1⟩, ⟨0, 3, 1⟩⟩).map Towards.inv =
        (Route.reverse ⟨⟨0, 0, 1⟩, ⟨0, 3, 1⟩⟩).towards :=
  ⟨by decide, towards_inv_eq_reverse_towards.1 ⟨⟨0, 0, 1⟩, ⟨0, 3, 1⟩⟩ (by decide)⟩

/-- C9: a malformed route (all-zero or multi-axis displacement) fails
classification (`unreachable!()`, modelled as `none`); an axis-aligned route
never fails, and the sign of the single non-zero difference selects the
direction. -/
theorem towards_malformed_fails :
    (∀ r : Route Nat, ¬ AxisAligned r → r.towards = none) ∧
    (∀ r : Route Nat, AxisAligned r →
      r.towards ≠ none ∧
      (0 < r.vector.row → r.towards = some .Up) ∧
      (r.vector.row < 0 → r.towards = some .Down) ∧
      (0 < r.vector.col → r.towards = some .Right) ∧
      (r.vector.col < 0 → r.towards = some .Left) ∧
      (0 < r.vector.lay → r.towards = some .Top) ∧
      (r.vector.lay < 0 → r.towards = some .Bottom)) := by
  refine ⟨Route.towards_not_axis_aligned, fun r h => ?_⟩
  rcases h with ⟨h1, h2, h3⟩ | ⟨h1, h2, h3⟩ | ⟨h1, h2, h3⟩
  · rcases lt_or_gt_of_ne h1 with hs | hs
    · rw [Route.towards_down r hs h2 h3]
      exact ⟨by simp, by omega, fun _ => rfl, by omega, by omega, by omega, by omega⟩
    · rw [Route.towards_up r hs h2 h3]
      exact ⟨by simp, fun _ => rfl, by omega, by omega, by omega, by omega, by omega⟩
  · rcases lt_or_gt_of_ne h2 with hs | hs
    · rw [Route.towards_left r h1 hs h3]
      exact ⟨by simp, by omega, by omega, by omega, fun _ => rfl, by omega, by omega⟩
    · rw [Route.towards_right r h1 hs h3]
      exact ⟨by simp, by omega, by omega, fun _ => rfl, by omega, by omega, by omega⟩
  · rcases lt_or_gt_of_ne h3 with hs | hs
    · rw [Route.towards_bottom r h1 h2 hs]
      exact ⟨by simp, by omega, by omega, by omega, by omega, by omega, fun _ => rfl⟩
    · rw [Route.towards_top r h1 h2 hs]
      exact ⟨by simp, by omega, by omega, by omega, by omega, fun _ => rfl, by omega⟩

/-- C9 witness: the degenerate route `(1,1,1) → (1,1,1)` is not axis-aligned
and fails classification, while the axis-aligned route `(0,0,1) → (0,3,1)`
is classified `Right` by the sign rule. -/
theorem towards_malformed_fails_witness :
    (¬ AxisAligned ⟨⟨1, 1, 1⟩, ⟨1, 1, 1⟩⟩ ∧
      Route.towards ⟨⟨1, 1, 1⟩, ⟨1, 1, 1⟩⟩ = none) ∧
    (AxisAligned ⟨⟨0, 0, 1⟩, ⟨0, 3, 1⟩⟩ ∧
      Route.towards ⟨⟨0, 0, 1⟩, ⟨0, 3, 1⟩⟩ = some .Right) :=
  ⟨⟨by decide, towards_malformed_fails.1 _ (by decide)⟩,
   ⟨by decide,
    (towards_malformed_fails.2 ⟨⟨0, 0, 1⟩, ⟨0, 3, 1⟩⟩ (by decide)).2.2.2.1 (by decide)⟩⟩

/-! ### Naming scheme (`FactoryID`) -/

/-- The character for a single decimal digit. -/
def digitChar (d : Nat) : Char := Char.ofNat (48 + d)

/-- Decimal rendering of a natural number, most significant digit first,
with explicit fuel to keep the recursion structural (the fuel `n + 1` always
suffices). Models Rust's `{}` formatting of an unsigned integer. -/
def natToDigitsAux : Nat → Nat → List Char
  | 0, _ => []
  | fuel + 1, n =>
    if n < 10 then [digitChar n]
    else natToDigitsAux fuel (n / 10) ++ [digitChar (n % 10)]

def natToDigits (n : Nat) : List Char := natToDigitsAux (n + 1) n

/-- Numeric value of a digit string, most significant digit first. -/
def digitsVal (s : List Char) : Nat :=
  s.foldl (fun a c => a * 10 + (c.toNat - 48)) 0

theorem digitChar_isDigit (d : Nat) (h : d < 10) : (digitChar d).isDigit = true := by
  interval_cases d <;> decide

theorem digitChar_val (d : Nat) (h : d < 10) : (digitChar d).toNat - 48 = d := by
  interval_cases d <;> decide

theorem digitsVal_append_digit (s : List Char) (c : Char) :
    digitsVal (s ++ [c]) = digitsVal s * 10 + (c.toNat - 48) := by
  simp [digitsVal, List.foldl_append]

theorem natToDigitsAux_spec :
    ∀ fuel n, n < fuel →
      digitsVal (natToDigitsAux fuel n) = n ∧
      (natToDigitsAux fuel n).all Char.isDigit = true ∧
      natToDigitsAux fuel n ≠ [] := by
  intro fuel
  induction fuel with
  | zero => omega
  | succ f ih =>
    intro n hn
    by_cases h10 : n < 10
    · refine ⟨?_, ?_, ?_⟩ <;> simp [natToDigitsAux, h10, digitsVal]
      · exact digitChar_val n h10
      · exact digitChar_isDigit n h10
    · obtain ⟨hv, hd, hne⟩ := ih (n / 10) (by omega)
      refine ⟨?_, ?_, ?_⟩
      · rw [natToDigitsAux, if_neg h10, digitsVal_append_digit, hv,
          digitChar_val (n % 10) (by omega)]
        omega
      · rw [natToDigitsAux, if_neg h10, List.all_append, hd]
        simp [digitChar_isDigit (n % 10) (by omega)]
      · rw [natToDigitsAux, if_neg h10]
        simp

theorem digitsVal_natToDigits (n : Nat) : digitsVal (natToDigits n) = n :=
  (natToDigitsAux_spec (n + 1) n (by omega)).1

theorem natToDigits_all_digits (n : Nat) :
    (natToDigits n).all Char.isDigit = true :=
  (natToDigitsAux_spec (n + 1) n (by omega)).2.1

theorem natToDigits_ne_nil (n : Nat) : natToDigits n ≠ [] :=
  (natToDigitsAux_spec (n + 1) n (by omega)).2.2

/-- Model of `str::parse::<usize>` on an ASCII string: an optional leading
`+` sign followed by at least one decimal digit (overflow of the 64-bit
range is not modelled; no claim depends on it). -/
def parseUsize (s : List Char) : Option Nat :=
  if s = [] then none
  else
    let t := if s.head? = some '+' then s.tail else s
    if t ≠ [] ∧ t.all Char.isDigit then some (digitsVal t) else none

theorem parseUsize_natToDigits (n : Nat) : parseUsize (natToDigits n) = some n := by
  unfold parseUsize
  rw [if_neg (natToDigits_ne_nil n)]
  have hplus : (natToDigits n).head? ≠ some '+' := by
    cases hd : natToDigits n with
    | nil => exact absurd hd (natToDigits_ne_nil n)
    | cons c cs =>
      have := natToDigits_all_digits n
      rw [hd] at this
      simp only [List.all_cons, Bool.and_eq_true] at this
      simp only [List.head?_cons, Option.some.injEq]
      intro hc
      rw [show c = '+' from Option.some.inj hc] at this
      exact absurd this.1 (by decide)
  rw [if_neg hplus, if_pos ⟨natToDigits_ne_nil n, natToDigits_all_digits n⟩,
    digitsVal_natToDigits]

/-- Possible outcomes of `FactoryID::from_str`, separating the two panics
(out-of-range byte slice, `usize` subtraction underflow in a debug build)
from the recoverable `Err` of a failed integer parse. -/
inductive FromStrOutcome
  | ok (id : Nat)
  | parseErr
  | slicePanic
  | underflowPanic
deriving DecidableEq, Repr

/-- `FactoryID::from_str` over an explicit per-type string `pfx` (the
trait's `prefix()`): take the byte slice `name[pfx.len()..]` (panics when
the name is shorter than the provided string), parse it as `usize`, and
subtract one (underflows when the parsed value is 0). -/
def FactoryID.from_str (pfx name : List Char) : FromStrOutcome :=
  if name.length < pfx.length then .slicePanic
  else
    match parseUsize (name.drop pfx.length) with
    | none => .parseErr
    | some 0 => .underflowPanic
    | some (n + 1) => .ok n

/-- `FactoryID::from_numeric`: `format!("{}{}", prefix, id + 1)`. -/
def FactoryID.from_numeric (pfx : List Char) (id : Nat) : List Char :=
  pfx ++ natToDigits (id + 1)

/-- The per-type prefixes implemented in `components.rs`: Layer `"M"`,
MasterPin `"P"`, Blockage `"B"`, MasterCell `"MC"`, Cell `"C"`, Net `"N"`. -/
def allFactoryPrefixes : List (List Char) :=
  [['M'], ['P'], ['B'], ['M', 'C'], ['C'], ['N']]

/-- C6: naming round-trip — for every per-type string (in particular each of
the six implemented ones) and every non-negative id, converting the id to
its display name and parsing that name back yields the original id. -/
theorem naming_round_trip (pfx : List Char) (id : Nat) :
    FactoryID.from_str pfx (FactoryID.from_numeric pfx id) = .ok id := by
  unfold FactoryID.from_str FactoryID.from_numeric
  rw [if_neg (by simp), List.drop_left, parseUsize_natToDigits]

/-- C7 as stated in the spec: on every input, `from_str` either returns the
parsed value minus one or a recoverable parse error, the latter exactly when
the remainder after the prefix-length slice is not a valid integer. -/
def FromStrTotalSpec : Prop :=
  ∀ pfx name : List Char,
    (FactoryID.from_str pfx name = .parseErr ↔
      parseUsize (name.drop pfx.length) = none) ∧
    (∀ v, parseUsize (name.drop pfx.length) = some v →
      FactoryID.from_str pfx name = .ok (v - 1))

/-- C7 counterexample: at the concrete input `"N0"` with the net type's
one-character string, the remainder `"0"` is a valid integer, yet `from_str`
neither returns `0 - 1` nor a parse error — it underflows. -/
theorem from_str_total_spec_false : ¬ FromStrTotalSpec := fun h => by
  have := (h ['N'] ['N', '0']).2 0 (by decide)
  exact absurd this (by decide)

/-- C7 (amended): for every name at least as long as the per-type string,
`from_str` returns a recoverable parse error exactly when the remainder
after dropping that many characters is not a valid integer; a remainder
parsing to `v + 1` yields `v`, while a remainder parsing to `0` underflows
instead of returning a value; and only the length of the per-type string —
never its characters — affects the result. -/
theorem from_str_characterization (pfx name : List Char)
    (h : pfx.length ≤ name.length) :
    (FactoryID.from_str pfx name = .parseErr ↔
      parseUsize (name.drop pfx.length) = none) ∧
    (∀ v, parseUsize (name.drop pfx.length) = some (v + 1) →
      FactoryID.from_str pfx name = .ok v) ∧
    (parseUsize (name.drop pfx.length) = some 0 →
      FactoryID.from_str pfx name = .underflowPanic) ∧
    (∀ pfx2 : List Char, pfx2.length = pfx.length →
      FactoryID.from_str pfx2 name = FactoryID.from_str pfx name) := by
  unfold FactoryID.from_str
  rw [if_neg (by omega)]
  refine ⟨?_, fun v hv => by rw [hv], fun hv => by rw [hv], fun pfx2 hl => ?_⟩
  · cases hp : parseUsize (name.drop pfx.length) with
    | none => simp
    | some v =>
      cases v with
      | zero => simp
      | succ n => simp
  · rw [if_neg (by omega), hl]

/-- C7 witness: with a one-character type string and the name `"X7"` (whose
leading character does not match), the remainder `"7"` parses and `from_str`
returns `6`; the identically-long string `"Q"` gives the same result. -/
theorem from_str_characterization_witness :
    (['M'] : List Char).length ≤ (['X', '7'] : List Char).length ∧
      FactoryID.from_str ['M'] ['X', '7'] = .ok 6 ∧
      FactoryID.from_str ['Q'] ['X', '7'] = FactoryID.from_str ['M'] ['X', '7'] :=
  ⟨by decide,
   (from_str_characterization ['M'] ['X', '7'] (by decide)).2.1 6 (by decide),
   (from_str_characterization ['M'] ['X', '7'] (by decide)).2.2.2 ['Q'] (by decide)⟩

/-- C10: `from_str` has inputs on which it neither returns an id nor the
documented recoverable parse error — a name strictly shorter than the
per-type string makes the byte slice panic, and a numeric suffix parsing to
`0` makes the `usize` subtraction `0 - 1` underflow (a debug-build panic)
instead of producing an error value. -/
theorem from_str_panics :
    (∀ pfx name : List Char, name.length < pfx.length →
      FactoryID.from_str pfx name = .slicePanic) ∧
    (∀ pfx name : List Char, pfx.length ≤ name.length →
      parseUsize (name.drop pfx.length) = some 0 →
      FactoryID.from_str pfx name = .underflowPanic) := by
  constructor
  · intro pfx name hlen
    unfold FactoryID.from_str
    rw [if_pos hlen]
  · intro pfx name hlen hp
    unfold FactoryID.from_str
    rw [if_neg (by omega), hp]

/-- C10 witness: the name `"M"` is shorter than the MasterCell string `"MC"`
and hits the slice panic; the name `"N0"` hits the underflow. -/
theorem from_str_panics_witness :
    (FactoryID.from_str ['M', 'C'] ['M'] = .slicePanic) ∧
      (FactoryID.from_str ['N'] ['N', '0'] = .underflowPanic) :=
  ⟨from_str_panics.1 ['M', 'C'] ['M'] (by decide),
   from_str_panics.2 ['N'] ['N', '0'] (by decide) (by decide)⟩

/-! ### Junction tree construction (`NetTree`) -/

/-- Modelled from the spec: the repository's `UnionFind` lives in
`src/utilities.rs`, which is not among the provided sources; §4.3 of the
spec specifies a standard disjoint-set structure over `n` elements, created
with each element in its own singleton set, where `union(a, b)` reports
whether a merge occurred (`false` iff the two were already in the same set)
and `done()` reports whether the structure has collapsed to a single set.
Represented here as a list mapping each element directly to its current
root (the spec requires only accurate connectivity reporting, not path
compression). -/
structure UnionFind where
  root : List Nat
deriving DecidableEq, Repr

def UnionFind.new (n : Nat) : UnionFind := ⟨List.range n⟩

def UnionFind.find (uf : UnionFind) (a : Nat) : Nat := uf.root.getD a a

def UnionFind.union (uf : UnionFind) (a b : Nat) : Bool × UnionFind :=
  let ra := uf.find a
  let rb := uf.find b
  if ra = rb then (false, uf)
  else (true, ⟨uf.root.map (fun r => if r = ra then rb else r)⟩)

def UnionFind.done (uf : UnionFind) : Bool :=
  match uf.root with
  | [] => true
  | r :: rs => rs.all (fun x => x == r)

/-- `Pointer`: index and layer (`height`) of a neighboring junction. -/
structure Pointer where
  index : Nat
  height : Nat
deriving DecidableEq, Repr

/-- `NetNode`: a junction — optional pin id, flattened position, and up to
four directional links. -/
structure NetNode where
  id : Option Nat
  position : Pair Nat
  up : Option Pointer
  down : Option Pointer
  left : Option Pointer
  right : Option Pointer
deriving DecidableEq, Repr

/-- `usize::MAX` on the 64-bit targets the crate builds for. -/
def usizeMax : Nat := 2 ^ 64 - 1

/-- `NetNode::neightbors` (sic): the four directional link slots. -/
def NetNode.neightbors (n : NetNode) : List (Option Pointer) :=
  [n.up, n.down, n.left, n.right]

/-- `NetNode::span`: fold the layers of the present links starting from the
sentinel `(usize::MAX, usize::MIN)`. -/
def NetNode.span (n : NetNode) : Nat × Nat :=
  ((n.neightbors.filterMap (fun o => o)).map Pointer.height).foldl
    (fun mm h => (min mm.1 h, max mm.2 h)) (usizeMax, 0)

/-- `NetNode::index`: select a directional slot.  The source declares the
`Top`/`Bottom` arms `unreachable!()`; no caller passes them. -/
def NetNode.index (n : NetNode) : Towards → Option Pointer
  | .Up => n.up
  | .Down => n.down
  | .Left => n.left
  | .Right => n.right
  | .Top => none
  | .Bottom => none

/-- Store a pointer into one directional slot (the `match` inside
`NetTree::connect`'s `set_node` closure; `Top`/`Bottom` are
`unreachable!()` there and never passed). -/
def NetNode.setDir (node : NetNode) (diff : Towards) (ptr : Option Pointer) :
    NetNode :=
  match diff with
  | .Up => { node with up := ptr }
  | .Down => { node with down := ptr }
  | .Left => { node with left := ptr }
  | .Right => { node with right := ptr }
  | .Top => node
  | .Bottom => node

/-- One `set_node` call: look the node up (the source `expect`s, modelled as
`none` on an out-of-range index) and store the pointer. -/
def setNodePtr (nodes : List NetNode) (sindex oindex height : Nat)
    (diff : Towards) : Option (List NetNode) :=
  match nodes[sindex]? with
  | none => none
  | some node =>
    some (nodes.set sindex (node.setDir diff (some ⟨oindex, height⟩)))

/-- `NetTree::connect`: store the forward pointer on the source node and the
inverse-direction pointer on the target node, both carrying `height`. -/
def NetTree.connect (nodes : List NetNode) (sindex oindex height : Nat)
    (diff : Towards) : Option (List NetNode) :=
  match setNodePtr nodes sindex oindex height diff with
  | none => none
  | some nodes1 => setNodePtr nodes1 oindex sindex height diff.inv

/-- Whether a direction is one of the four planar ones (the filter in
`NetTree::new`'s segment loop). -/
def planar : Towards → Bool
  | .Up | .Down | .Left | .Right => true
  | .Top | .Bottom => false

/-- Whether a node's directional slot is already occupied.  Ghost predicate:
used only to instrument construction with the `clash` flag below; it does
not alter any computed data. -/
def hasSlot (nodes : List NetNode) (i : Nat) (d : Towards) : Bool :=
  match nodes[i]? with
  | none => false
  | some node => (node.index d).isSome

/-- State threaded through `NetTree::new`'s segment loop.  `clash` is ghost
instrumentation recording whether some `connect` overwrote an
already-present directional pointer; the source keeps no such flag and
silently overwrites. -/
structure BuildState where
  nodes : List NetNode
  uf : UnionFind
  ufCnt : Nat
  clash : Bool
deriving DecidableEq, Repr

/-- One iteration of the segment loop in `NetTree::new`: classify the
segment (panicking, i.e. `none`, on a malformed one), skip `Top`/`Bottom`
segments, resolve both flattened endpoints (the source `expect`s), and
either count a redundant segment or union-and-connect. -/
def NetTree.step (lookup : Pair Nat → Option Nat) (st : BuildState)
    (route : Route Nat) : Option BuildState :=
  match route.towards with
  | none => none
  | some towards =>
    if planar towards then
      let height := route.source.lay
      match lookup route.source.flatten, lookup route.target.flatten with
      | some sIdx, some tIdx =>
        let res := st.uf.union sIdx tIdx
        if res.1 then
          match NetTree.connect st.nodes sIdx tIdx height towards with
          | none => none
          | some nodes1 =>
            some { nodes := nodes1, uf := res.2, ufCnt := st.ufCnt,
                   clash := st.clash || hasSlot st.nodes sIdx towards ||
                     hasSlot st.nodes tIdx towards.inv }
        else
          some { st with uf := res.2, ufCnt := st.ufCnt + 1 }
      | _, _ => none
    else some st

/-- The candidate-position entries contributed by the segments: both
flattened endpoints of every segment, untagged. -/
def segmentEntries (segments : List (Route Nat)) :
    List (Pair Nat × Option Nat) :=
  segments.flatMap (fun r => [(r.source.flatten, none), (r.target.flatten, none)])

/-- The candidate-position entry of one listed pin: its looked-up position
tagged with the pin id (`none` models the `expect("Pin not found in
database")` panic). -/
def pinEntry (pin_position : Nat → Option (Pair Nat)) (idx : Nat) :
    Option (Pair Nat × Option Nat) :=
  (pin_position idx).map (fun p => (p, some idx))

/-- The entries contributed by the listed pins, in order; `none` as soon as
one pin has no known position (the `expect` panic in the iterator chain). -/
def pinEntriesOf (pin_position : Nat → Option (Pair Nat)) :
    List Nat → Option (List (Pair Nat × Option Nat))
  | [] => some []
  | p :: ps =>
    match pinEntry pin_position p, pinEntriesOf pin_position ps with
    | some e, some es => some (e :: es)
    | _, _ => none

/-- One insertion into the position map: `*hmap.entry(position)
.or_insert(None) = idx` — unconditional last-write-wins on the value.  The
`HashMap` is modelled as an insertion-ordered association list, fixing one
iteration order (the source's `HashMap` order is unspecified; the spec
flags this in §9). -/
def upsert (m : List (Pair Nat × Option Nat)) (k : Pair Nat)
    (v : Option Nat) : List (Pair Nat × Option Nat) :=
  if k ∈ m.map Prod.fst then m.map (fun e => if e.1 = k then (k, v) else e)
  else m ++ [(k, v)]

/-- The deduplicating fold building the position map. -/
def buildPositionMap (entries : List (Pair Nat × Option Nat)) :
    List (Pair Nat × Option Nat) :=
  entries.foldl (fun m e => upsert m e.1 e.2) []

/-- One junction per distinct position, with no links yet. -/
def initialNodes (entries : List (Pair Nat × Option Nat)) : List NetNode :=
  (buildPositionMap entries).map (fun e => ⟨e.2, e.1, none, none, none, none⟩)

/-- The `position_to_idx` lookup (a `HashMap` in the source; positions are
unique across junctions, so the first matching index is the only one). -/
def positionToIdx (nodes : List NetNode) (p : Pair Nat) : Option Nat :=
  nodes.findIdx? (fun nd => nd.position == p)

/-- `NetTree`: the owning collection of junctions. -/
structure NetTree where
  nodes : List NetNode
deriving DecidableEq, Repr

/-- `NetTree::new` up to (but not including) the two final
`debug_assert!`s: build the deduplicated junction list, then run the
segment loop.  `none` models a panic (missing pin position, malformed
segment, or out-of-range index). -/
def NetTree.newCore (conn_pins : List Nat) (segments : List (Route Nat))
    (pin_position : Nat → Option (Pair Nat)) : Option BuildState := do
  let pinEntries ← pinEntriesOf pin_position conn_pins
  let nodes0 := initialNodes (segmentEntries segments ++ pinEntries)
  segments.foldlM (NetTree.step (positionToIdx nodes0))
    ⟨nodes0, UnionFind.new nodes0.length, 0, false⟩

/-- `NetTree::new` as compiled in release mode: every `debug_assert!` is
compiled out, so the tree is returned regardless of connectivity or the
redundancy count. -/
def NetTree.newRelease (conn_pins : List Nat) (segments : List (Route Nat))
    (pin_position : Nat → Option (Pair Nat)) : Option NetTree :=
  (NetTree.newCore conn_pins segments pin_position).map (fun st => ⟨st.nodes⟩)

/-- `NetTree::new` as compiled in a debug build: additionally enforce the
assertions.  The only two that can fail are `debug_assert!(union_find
.done())` and the redundancy-count checks (`debug_assert_eq!(uf_cnt, 0)`
before each increment, `debug_assert_eq!(uf_cnt, 1)` at the end — together
exactly `uf_cnt = 1` at the end); the remaining assertions (distinct
positions, equal endpoint layers, distinct endpoint indices) provably never
fire. -/
def NetTree.newDebug (conn_pins : List Nat) (segments : List (Route Nat))
    (pin_position : Nat → Option (Pair Nat)) : Option NetTree :=
  (NetTree.newCore conn_pins segments pin_position).bind fun st =>
    if st.uf.done && st.ufCnt == 1 then some ⟨st.nodes⟩ else none

/-- `Net`: id, minimum layer, and the junction tree. -/
structure Net where
  id : Nat
  min_layer : Nat
  tree : NetTree
deriving DecidableEq, Repr

/-- `Net::new` (release build): construct the tree and wrap it. -/
def Net.newRelease (id min_layer : Nat) (conn_pins : List Nat)
    (segments : List (Route Nat)) (pin_position : Nat → Option (Pair Nat)) :
    Option Net :=
  (NetTree.newRelease conn_pins segments pin_position).map
    (fun t => ⟨id, min_layer, t⟩)

/-! ### Junction count (C5) -/

theorem upsert_map_fst (m : List (Pair Nat × Option Nat)) (k : Pair Nat)
    (v : Option Nat) :
    (upsert m k v).map Prod.fst =
      if k ∈ m.map Prod.fst then m.map Prod.fst
      else m.map Prod.fst ++ [k] := by
  unfold upsert
  split_ifs with h
  · rw [List.map_map]
    refine List.map_congr_left (fun e _ => ?_)
    by_cases he : e.1 = k
    · simp [he]
    · simp [he]
  · simp

theorem upsert_map_fst_nodup (m : List (Pair Nat × Option Nat)) (k : Pair Nat)
    (v : Option Nat) (h : (m.map Prod.fst).Nodup) :
    ((upsert m k v).map Prod.fst).Nodup := by
  rw [upsert_map_fst]
  split_ifs with hk
  · exact h
  · simp [List.nodup_append, h, hk]

theorem upsert_map_fst_toFinset (m : List (Pair Nat × Option Nat))
    (k : Pair Nat) (v : Option Nat) :
    ((upsert m k v).map Prod.fst).toFinset =
      insert k (m.map Prod.fst).toFinset := by
  rw [upsert_map_fst]
  split_ifs with hk
  · rw [Finset.insert_eq_self.2 (List.mem_toFinset.2 hk)]
  · simp [Finset.insert_eq, Finset.union_comm]

theorem foldl_upsert_nodup (entries : List (Pair Nat × Option Nat)) :
    ∀ m, (m.map Prod.fst).Nodup →
      ((entries.foldl (fun m e => upsert m e.1 e.2) m).map Prod.fst).Nodup := by
  induction entries with
  | nil => exact fun m h => h
  | cons e es ih =>
    intro m h
    exact ih (upsert m e.1 e.2) (upsert_map_fst_nodup m e.1 e.2 h)

theorem foldl_upsert_toFinset (entries : List (Pair Nat × Option Nat)) :
    ∀ m, ((entries.foldl (fun m e => upsert m e.1 e.2) m).map Prod.fst).toFinset =
      (m.map Prod.fst).toFinset ∪ (entries.map Prod.fst).toFinset := by
  induction entries with
  | nil => simp
  | cons e es ih =>
    intro m
    rw [List.foldl_cons, ih (upsert m e.1 e.2), upsert_map_fst_toFinset]
    ext p
    simp [or_assoc]

theorem buildPositionMap_nodup (entries : List (Pair Nat × Option Nat)) :
    ((buildPositionMap entries).map Prod.fst).Nodup :=
  foldl_upsert_nodup entries [] (by simp)

theorem buildPositionMap_toFinset (entries : List (Pair Nat × Option Nat)) :
    ((buildPositionMap entries).map Prod.fst).toFinset =
      (entries.map Prod.fst).toFinset := by
  rw [buildPositionMap, foldl_upsert_toFinset]
  simp

theorem initialNodes_length (entries : List (Pair Nat × Option Nat)) :
    (initialNodes entries).length = (entries.map Prod.fst).toFinset.card := by
  rw [initialNodes, List.length_map,
    ← List.length_map (buildPositionMap entries) Prod.fst,
    ← List.toFinset_card_of_nodup (buildPositionMap_nodup entries),
    buildPositionMap_toFinset]

theorem pinEntriesOf_fst (pin_position : Nat → Option (Pair Nat)) :
    ∀ (pins : List Nat) (es : List (Pair Nat × Option Nat)),
      pinEntriesOf pin_position pins = some es →
      es.map Prod.fst = pins.filterMap pin_position := by
  intro pins
  induction pins with
  | nil =>
    intro es h
    cases h
    rfl
  | cons p ps ih =>
    intro es h
    unfold pinEntriesOf at h
    cases hp : pinEntry pin_position p with
    | none => rw [hp] at h; exact Option.noConfusion h
    | some e =>
      rw [hp] at h
      cases hps : pinEntriesOf pin_position ps with
      | none => rw [hps] at h; exact Option.noConfusion h
      | some es' =>
        rw [hps] at h
        cases h
        obtain ⟨pos, hpos, rfl⟩ := Option.map_eq_some'.1 hp
        simp [List.filterMap_cons, hpos, ih es' hps]

theorem segmentEntries_fst (segments : List (Route Nat)) :
    (segmentEntries segments).map Prod.fst =
      segments.flatMap (fun r => [r.source.flatten, r.target.flatten]) := by
  rw [segmentEntries, List.map_flatMap]
  rfl

theorem setNodePtr_length (nodes nodes' : List NetNode)
    (sindex oindex height : Nat) (diff : Towards)
    (h : setNodePtr nodes sindex oindex height diff = some nodes') :
    nodes'.length = nodes.length := by
  unfold setNodePtr at h
  cases hn : nodes[sindex]? with
  | none => rw [hn] at h; exact Option.noConfusion h
  | some node =>
    rw [hn] at h
    cases h
    simp

theorem connect_length (nodes nodes' : List NetNode)
    (sindex oindex height : Nat) (diff : Towards)
    (h : NetTree.connect nodes sindex oindex height diff = some nodes') :
    nodes'.length = nodes.length := by
  unfold NetTree.connect at h
  cases h1 : setNodePtr nodes sindex oindex height diff with
  | none => rw [h1] at h; exact Option.noConfusion h
  | some n1 =>
    rw [h1] at h
    dsimp only at h
    exact (setNodePtr_length n1 nodes' _ _ _ _ h).trans
      (setNodePtr_length nodes n1 _ _ _ _ h1)

/-- Complete case analysis of one segment-loop iteration that returned. -/
theorem step_cases (lookup : Pair Nat → Option Nat) (st st' : BuildState)
    (r : Route Nat) (h : NetTree.step lookup st r = some st') :
    (∃ t, r.towards = some t ∧ planar t = false ∧ st' = st) ∨
    (∃ t sIdx tIdx, r.towards = some t ∧ planar t = true ∧
      lookup r.source.flatten = some sIdx ∧
      lookup r.target.flatten = some tIdx ∧
      (((st.uf.union sIdx tIdx).1 = false ∧
        st' = { st with
                uf := (st.uf.union sIdx tIdx).2,
                ufCnt := st.ufCnt + 1 }) ∨
       ((st.uf.union sIdx tIdx).1 = true ∧
        ∃ nodes1,
          NetTree.connect st.nodes sIdx tIdx r.source.lay t = some nodes1 ∧
          st' = { nodes := nodes1,
                  uf := (st.uf.union sIdx tIdx).2,
                  ufCnt := st.ufCnt,
                  clash := st.clash || hasSlot st.nodes sIdx t ||
                    hasSlot st.nodes tIdx t.inv }))) := by
  unfold NetTree.step at h
  cases ht : r.towards with
  | none => rw [ht] at h; exact Option.noConfusion h
  | some t =>
    rw [ht] at h
    dsimp only at h
    by_cases hp : planar t
    · rw [if_pos hp] at h
      cases hs : lookup r.source.flatten with
      | none =>
        rw [hs] at h
        exact Option.noConfusion h
      | some sIdx =>
        cases htt : lookup r.target.flatten with
        | none =>
          rw [hs, htt] at h
          exact Option.noConfusion h
        | some tIdx =>
          rw [hs, htt] at h
          dsimp only at h
          by_cases hm : (st.uf.union sIdx tIdx).1
          · rw [if_pos hm] at h
            cases hc : NetTree.connect st.nodes sIdx tIdx r.source.lay t with
            | none => rw [hc] at h; exact Option.noConfusion h
            | some nodes1 =>
              rw [hc] at h
              cases h
              exact Or.inr ⟨t, sIdx, tIdx, rfl, hp, rfl, rfl,
                Or.inr ⟨hm, nodes1, hc, rfl⟩⟩
          · rw [if_neg hm] at h
            cases h
            exact Or.inr ⟨t, sIdx, tIdx, rfl, hp, rfl, rfl,
              Or.inl ⟨Bool.eq_false_iff.2 hm, rfl⟩⟩
    · rw [if_neg hp] at h
      cases h
      exact Or.inl ⟨t, rfl, Bool.eq_false_iff.2 hp, rfl⟩

theorem step_preserves_length (lookup : Pair Nat → Option Nat)
    (st st' : BuildState) (r : Route Nat)
    (h : NetTree.step lookup st r = some st') :
    st'.nodes.length = st.nodes.length := by
  rcases step_cases lookup st st' r h with
    ⟨t, _, _, rfl⟩ |
    ⟨t, sIdx, tIdx, _, _, _, _, ⟨_, rfl⟩ | ⟨_, nodes1, hc, rfl⟩⟩
  · rfl
  · rfl
  · exact connect_length st.nodes nodes1 sIdx tIdx r.source.lay t hc

theorem foldlM_step_length (lookup : Pair Nat → Option Nat) :
    ∀ (segs : List (Route Nat)) (st st' : BuildState),
      segs.foldlM (NetTree.step lookup) st = some st' →
      st'.nodes.length = st.nodes.length := by
  intro segs
  induction segs with
  | nil =>
    intro st st' h
    cases h
    rfl
  | cons r rs ih =>
    intro st st' h
    rw [List.foldlM_cons] at h
    cases h1 : NetTree.step lookup st r with
    | none => rw [h1] at h; exact Option.noConfusion h
    | some st1 =>
      rw [h1] at h
      exact (ih st1 st' (by simpa using h)).trans
        (step_preserves_length lookup st st1 r h1)

/-- C5: for every input on which `NetTree::new` returns, the number of
junctions equals the number of distinct flattened positions across the
endpoints of the segments united with the positions of the listed pins. -/
theorem junction_count (conn_pins : List Nat) (segments : List (Route Nat))
    (pin_position : Nat → Option (Pair Nat)) (st : BuildState)
    (h : NetTree.newCore conn_pins segments pin_position = some st) :
    st.nodes.length =
      ((segments.flatMap (fun r => [r.source.flatten, r.target.flatten]) ++
        conn_pins.filterMap pin_position).toFinset).card := by
  unfold NetTree.newCore at h
  cases hp : pinEntriesOf pin_position conn_pins with
  | none => rw [hp] at h; exact Option.noConfusion h
  | some pes =>
    rw [hp] at h
    dsimp only at h
    have hlen := foldlM_step_length _ segments _ st h
    have hfst : (segmentEntries segments ++ pes).map Prod.fst =
        segments.flatMap (fun r => [r.source.flatten, r.target.flatten]) ++
          conn_pins.filterMap pin_position := by
      rw [List.map_append, segmentEntries_fst,
        pinEntriesOf_fst pin_position conn_pins pes hp]
    rw [hlen]
    dsimp only
    rw [initialNodes_length, hfst]

/-- The end-to-end example of spec §8: pins `P1` (internal id 0) at `(0,0)`
and `P2` (internal id 1) at `(0,3)`, both on layer 1. -/
def e2ePinPos : Nat → Option (Pair Nat) := fun i =>
  if i = 0 then some ⟨0, 0⟩ else if i = 1 then some ⟨0, 3⟩ else none

/-- The end-to-end example's single segment `(0,0,1) → (0,3,1)`. -/
def e2eSegs : List (Route Nat) := [⟨⟨0, 0, 1⟩, ⟨0, 3, 1⟩⟩]

/-- The build state the model computes for the end-to-end example. -/
def e2eSt : BuildState :=
  ⟨[⟨some 0, ⟨0, 0⟩, none, none, none, some ⟨1, 1⟩⟩,
    ⟨some 1, ⟨0, 3⟩, none, none, some ⟨0, 1⟩, none⟩],
   ⟨[1, 1]⟩, 0, false⟩

/-- C5 witness: the end-to-end example has 2 junctions, matching the 2
distinct flattened positions. -/
theorem junction_count_witness :
    NetTree.newCore [0, 1] e2eSegs e2ePinPos = some e2eSt ∧
      e2eSt.nodes.length =
        ((e2eSegs.flatMap (fun r => [r.source.flatten, r.target.flatten]) ++
          ([0, 1].filterMap e2ePinPos)).toFinset).card :=
  ⟨by decide, junction_count [0, 1] e2eSegs e2ePinPos e2eSt (by decide)⟩

/-! ### Redundancy tolerance and the debug assertions (C4) -/

/-- C4: a redundant planar segment (endpoints already in the same set) is
dropped without creating a link — the junction list is unchanged and only
the redundancy counter advances; the final structural checks — full
disjoint-set connectivity and a redundancy count of exactly 1 — gate only
the debug build (`NetTree.newDebug`), while the release build
(`NetTree.newRelease`) returns the tree from the same core computation
unconditionally, so a second redundancy, a zero-redundancy segment set, or
a disconnected result is rejected only in debug builds. -/
theorem redundancy_tolerance :
    (∀ (lookup : Pair Nat → Option Nat) (st : BuildState) (r : Route Nat)
        (t : Towards) (sIdx tIdx : Nat),
      r.towards = some t → planar t = true →
      lookup r.source.flatten = some sIdx →
      lookup r.target.flatten = some tIdx →
      (st.uf.union sIdx tIdx).1 = false →
      NetTree.step lookup st r =
        some { st with
               uf := (st.uf.union sIdx tIdx).2,
               ufCnt := st.ufCnt + 1 }) ∧
    (∀ (conn_pins : List Nat) (segments : List (Route Nat))
        (pin_position : Nat → Option (Pair Nat)) (st : BuildState),
      NetTree.newCore conn_pins segments pin_position = some st →
      (NetTree.newDebug conn_pins segments pin_position = some ⟨st.nodes⟩ ↔
        st.uf.done = true ∧ st.ufCnt = 1) ∧
      NetTree.newRelease conn_pins segments pin_position = some ⟨st.nodes⟩) := by
  constructor
  · intro lookup st r t sIdx tIdx ht hp hs htt hu
    unfold NetTree.step
    rw [ht]
    dsimp only
    rw [if_pos hp, hs, htt]
    dsimp only
    rw [hu]
    simp
  · intro conn_pins segments pin_position st h
    constructor
    · unfold NetTree.newDebug
      rw [h, Option.some_bind]
      by_cases hd : st.uf.done
      · by_cases hc : st.ufCnt = 1
        · simp [hd, hc]
        · simp [hd, hc]
      · simp [hd]
    · unfold NetTree.newRelease
      rw [h]
      rfl

/-- A square of four segments whose last edge closes the cycle: exactly one
redundant segment, so even the debug build accepts it. -/
def sqSegs : List (Route Nat) :=
  [⟨⟨0, 0, 1⟩, ⟨0, 1, 1⟩⟩, ⟨⟨0, 1, 1⟩, ⟨1, 1, 1⟩⟩,
   ⟨⟨1, 1, 1⟩, ⟨1, 0, 1⟩⟩, ⟨⟨1, 0, 1⟩, ⟨0, 0, 1⟩⟩]

/-- The build state the model computes for the square example. -/
def sqSt : BuildState :=
  ⟨[⟨none, ⟨0, 0⟩, none, none, none, some ⟨1, 1⟩⟩,
    ⟨none, ⟨0, 1⟩, some ⟨2, 1⟩, none, some ⟨0, 1⟩, none⟩,
    ⟨none, ⟨1, 1⟩, none, some ⟨1, 1⟩, some ⟨3, 1⟩, none⟩,
    ⟨none, ⟨1, 0⟩, none, none, none, some ⟨2, 1⟩⟩],
   ⟨[3, 3, 3, 3]⟩, 1, false⟩

/-- C4 witness: a concrete redundant step leaves the junctions unchanged
and advances the counter, and the square example (exactly one redundancy,
fully connected) passes the debug gate while release returns the same
tree. -/
theorem redundancy_tolerance_witness :
    NetTree.step (fun _ => some 0) ⟨[], UnionFind.new 1, 0, false⟩
        ⟨⟨0, 0, 1⟩, ⟨0, 1, 1⟩⟩ =
      some ⟨[], UnionFind.new 1, 1, false⟩ ∧
    NetTree.newCore [] sqSegs (fun _ => none) = some sqSt ∧
    NetTree.newDebug [] sqSegs (fun _ => none) = some ⟨sqSt.nodes⟩ ∧
    NetTree.newRelease [] sqSegs (fun _ => none) = some ⟨sqSt.nodes⟩ := by
  refine ⟨?_, by decide, ?_, ?_⟩
  · exact redundancy_tolerance.1 (fun _ => some 0) ⟨[], UnionFind.new 1, 0, false⟩
      ⟨⟨0, 0, 1⟩, ⟨0, 1, 1⟩⟩ .Right 0 0 (by decide) (by decide) rfl rfl (by decide)
  · exact ((redundancy_tolerance.2 [] sqSegs (fun _ => none) sqSt
      (by decide)).1).2 ⟨by decide, by decide⟩
  · exact (redundancy_tolerance.2 [] sqSegs (fun _ => none) sqSt (by decide)).2

/-! ### Serialization (`Display for Net`) -/

/-- Rust `{}` formatting of a `usize`. -/
def natToString (n : Nat) : String := ⟨natToDigits n⟩

/-- The net's display name: `Self::from_numeric(self.id)` with the `Net`
prefix `"N"` (its `Err` arm is unreachable: `from_numeric` always
succeeds). -/
def netName (net : Net) : String := ⟨FactoryID.from_numeric ['N'] net.id⟩

/-- `Display for Point`: `"{} {} {}"`. -/
def pointStr (p : Point Nat) : String :=
  natToString p.row ++ " " ++ natToString p.col ++ " " ++ natToString p.lay

/-- `Display for Route`: `"{} {}"`. -/
def routeStr (r : Route Nat) : String :=
  pointStr r.source ++ " " ++ pointStr r.target

/-- The one line emitted per junction by the via loop in `Display for Net`:
the three `write!` calls `"{} {} {} "` (row, col, min), `"{} {} {} "`
(row, col, max), `"{}\n"` (name) produce a single newline-terminated
line. -/
def viaLine (name : String) (node : NetNode) : String :=
  natToString node.position.x ++ " " ++ natToString node.position.y ++ " " ++
    natToString node.span.1 ++ " " ++ natToString node.position.x ++ " " ++
    natToString node.position.y ++ " " ++ natToString node.span.2 ++ " " ++ name

/-- The line emitted per traversed link: `"{} {}\n"` of the `Route` between
the two junction positions at the link's layer, and the name. -/
def edgeLine (name : String) (source target : Point Nat) : String :=
  routeStr ⟨source, target⟩ ++ " " ++ name

/-- `Net::fmt_recursive` (output modelled as the list of emitted lines,
explicit fuel bounding the recursion depth — the source recurses without
bound and relies on the tree shape for termination): iterate the four
planar directions, skip the direction just arrived from, emit the edge
line for each present link, and recurse into the neighbor. -/
def fmtRecursive (fuel : Nat) (list : List NetNode) (name : String)
    (node : NetNode) (direction : Towards) : Option (List String) :=
  match fuel with
  | 0 => none
  | fuel + 1 =>
    [Towards.Up, Towards.Down, Towards.Left, Towards.Right].foldlM
      (fun acc dir =>
        if dir = direction.inv then some acc
        else
          match node.index dir with
          | none => some acc
          | some ptr =>
            match list[ptr.index]? with
            | none => none
            | some nearby =>
              let source := node.position.withLay ptr.height
              let target := nearby.position.withLay ptr.height
              match fmtRecursive fuel list name nearby dir with
              | none => none
              | some sub => some (acc ++ edgeLine name source target :: sub))
      []

/-- `Display for Net` (`fmt`): one via line per junction in collection
order, then — when a first junction exists — `fmt_recursive` from it once
per planar direction. -/
def Net.displayLines (net : Net) (fuel : Nat) : Option (List String) :=
  let name := netName net
  let vias := net.tree.nodes.map (viaLine name)
  match net.tree.nodes.head? with
  | none => some vias
  | some root =>
    match [Towards.Up, Towards.Down, Towards.Left, Towards.Right].foldlM
        (fun acc dir =>
          match fmtRecursive fuel net.tree.nodes name root dir with
          | none => none
          | some sub => some (acc ++ sub)) [] with
    | none => none
    | some edges => some (vias ++ edges)

/-- `Display for Net` with fuel sufficient for any tree-shaped net. -/
def Net.display (net : Net) : Option (List String) :=
  net.displayLines (net.tree.nodes.length + 1)

/-- The end-to-end example net (spec §8), id 0 (display name `N1`),
minimum layer 1, with the tree computed by construction. -/
def e2eNet : Net := ⟨0, 1, ⟨e2eSt.nodes⟩⟩

/-- The five lines the model computes for the end-to-end example. -/
def e2eLines : List String :=
  ["0 0 1 0 0 1 N1", "0 3 1 0 3 1 N1", "0 0 1 0 3 1 N1",
   "0 0 1 0 3 1 N1", "0 0 1 0 3 1 N1"]

/-- A 4-field via line as the spec's words describe it:
`<row> <col> <layer> <net-name>`. -/
def viaLine4 (name : String) (node : NetNode) (layer : Nat) : String :=
  natToString node.position.x ++ " " ++ natToString node.position.y ++ " " ++
    natToString layer ++ " " ++ name

/-- C1 as stated (following the spec's words, for comparison against the
source): serialization begins with, for each junction in collection order,
TWO newline-terminated via-lines `<row> <col> <layer> <net-name>` — the
first with the junction's minimum span layer, the second with its
maximum. -/
def TwoViaLinesPerJunction : Prop :=
  ∀ (net : Net) (fuel : Nat) (lines : List String),
    Net.displayLines net fuel = some lines →
    lines.take (2 * net.tree.nodes.length) =
      net.tree.nodes.flatMap (fun nd =>
        [viaLine4 (netName net) nd nd.span.1, viaLine4 (netName net) nd nd.span.2])

/-- C1 counterexample: on the end-to-end example the code's first two lines
are `0 0 1 0 0 1 N1` and `0 3 1 0 3 1 N1` — one 7-field line per junction —
not the four 4-field lines the claim requires. -/
theorem two_via_lines_per_junction_false : ¬ TwoViaLinesPerJunction := fun h =>
  absurd (h e2eNet 3 e2eLines (by decide)) (by decide)

/-- C1 (amended): for every net, serialization emits, for each junction in
collection order, ONE newline-terminated space-separated via-line
`<row> <col> <min> <row> <col> <max> <net-name>` pairing the junction's
(row, col) first with its minimum span layer and then with its maximum;
a zero-span junction repeats the identical `<row> <col> <layer>` triple
within that single line. -/
theorem via_lines_per_junction (net : Net) (fuel : Nat) (lines : List String)
    (h : Net.displayLines net fuel = some lines) :
    lines.take net.tree.nodes.length =
      net.tree.nodes.map (viaLine (netName net)) := by
  unfold Net.displayLines at h
  cases hh : net.tree.nodes.head? with
  | none =>
    rw [hh] at h
    dsimp only at h
    cases h
    rw [List.head?_eq_none_iff] at hh
    rw [hh]
    simp
  | some root =>
    rw [hh] at h
    dsimp only at h
    cases hf : [Towards.Up, Towards.Down, Towards.Left, Towards.Right].foldlM
        (fun acc dir =>
          match fmtRecursive fuel net.tree.nodes (netName net) root dir with
          | none => none
          | some sub => some (acc ++ sub)) [] with
    | none => rw [hf] at h; exact Option.noConfusion h
    | some edges =>
      rw [hf] at h
      cases h
      have hlen : net.tree.nodes.length =
          (net.tree.nodes.map (viaLine (netName net))).length :=
        (List.length_map _ _).symm
      rw [hlen, List.take_left]

/-- C1 witness: the end-to-end example's first two lines are exactly the
two junctions' single 7-field via lines. -/
theorem via_lines_per_junction_witness :
    Net.displayLines e2eNet 3 = some e2eLines ∧
      e2eLines.take e2eNet.tree.nodes.length =
        e2eNet.tree.nodes.map (viaLine (netName e2eNet)) :=
  ⟨by decide, via_lines_per_junction e2eNet 3 e2eLines (by decide)⟩

/-- C2: the claim says the traversal visits each stored link exactly once,
emitting exactly one edge line per link.  The code calls `fmt_recursive`
from the root once per planar direction while each call skips only the
direction's inverse, so every link of the root is traversed (and its whole
subtree re-serialized) three times: on the end-to-end example — the spec's
own §8 example, whose expected output has ONE edge line — the single
stored link yields the edge line `0 0 1 0 3 1 N1` three times. -/
theorem traversal_emits_each_link_thrice :
    Net.newRelease 0 1 [0, 1] e2eSegs e2ePinPos = some e2eNet ∧
      Net.display e2eNet = some e2eLines ∧
      e2eLines.count ("0 0 1 0 3 1 N1") = 3 :=
  ⟨by decide, by decide, by decide⟩

/-! ### The link graph invariant (C3) -/

/-- One directed hop in the link graph: junction `i` holds some directional
pointer whose index is `j`. -/
def LinkStep (nodes : List NetNode) (i j : Nat) : Prop :=
  ∃ (nd : NetNode) (d : Towards) (p : Pointer),
    nodes[i]? = some nd ∧ nd.index d = some p ∧ p.index = j

/-- Reachability along directional links (what a breadth/depth-first walk
can visit). -/
def Reaches (nodes : List NetNode) : Nat → Nat → Prop :=
  Relation.ReflTransGen (LinkStep nodes)

/-- Every directional pointer from `i` to `j` is mirrored by the
inverse-direction pointer from `j` back to `i` with the same layer. -/
def Mirrored (nodes : List NetNode) : Prop :=
  ∀ (i j hgt : Nat) (d : Towards) (nd : NetNode),
    nodes[i]? = some nd → nd.index d = some ⟨j, hgt⟩ →
    ∃ md : NetNode, nodes[j]? = some md ∧ md.index d.inv = some ⟨i, hgt⟩

/-- Segments refuting C3: `A→B` and `A→C` both leave `A = (0,0)` rightward
(`B = (0,1)`, `C = (0,5)`), so the second Right link overwrites the first,
and `C→B` is the one tolerated redundancy. -/
def cxSegs : List (Route Nat) :=
  [⟨⟨0, 0, 1⟩, ⟨0, 1, 1⟩⟩, ⟨⟨0, 0, 1⟩, ⟨0, 5, 1⟩⟩, ⟨⟨0, 5, 1⟩, ⟨0, 1, 1⟩⟩]

/-- The junctions the model computes for `cxSegs`: junction 1 still points
left to junction 0, but junction 0's right pointer was overwritten to 2. -/
def cxNodes : List NetNode :=
  [⟨none, ⟨0, 0⟩, none, none, none, some ⟨2, 1⟩⟩,
   ⟨none, ⟨0, 1⟩, none, none, some ⟨0, 1⟩, none⟩,
   ⟨none, ⟨0, 5⟩, none, none, some ⟨0, 1⟩, none⟩]

/-- C3 counterexample: on `cxSegs` even the debug build returns (the
disjoint-set reports full connectivity and exactly one redundancy), yet the
returned link graph is not mirrored — junction 1's Left pointer to junction
0 has no Right pointer back (it was overwritten), and junction 1 is in fact
unreachable from the others. -/
theorem tree_invariant_counterexample :
    NetTree.newDebug [] cxSegs (fun _ => none) = some ⟨cxNodes⟩ ∧
      ¬ Mirrored cxNodes := by
  refine ⟨by decide, fun h => ?_⟩
  obtain ⟨md, hmd, he⟩ :=
    h 1 0 1 .Left ⟨none, ⟨0, 1⟩, none, none, some ⟨0, 1⟩, none⟩
      (by decide) (by decide)
  have h0 : cxNodes[0]? = some ⟨none, ⟨0, 0⟩, none, none, none, some ⟨2, 1⟩⟩ := by
    decide
  rw [h0] at hmd
  cases hmd
  exact absurd he (by decide)

theorem UnionFind.new_find (n i : Nat) (hi : i < n) :
    (UnionFind.new n).find i = i := by
  unfold UnionFind.new UnionFind.find
  rw [List.getD_eq_getElem?_getD, List.getElem?_range hi]
  rfl

theorem UnionFind.new_length (n : Nat) : (UnionFind.new n).root.length = n :=
  List.length_range n

theorem UnionFind.union_length (uf : UnionFind) (a b : Nat) :
    (uf.union a b).2.root.length = uf.root.length := by
  simp only [UnionFind.union]
  split_ifs <;> simp

theorem UnionFind.union_merged_iff (uf : UnionFind) (a b : Nat) :
    (uf.union a b).1 = true ↔ uf.find a ≠ uf.find b := by
  simp only [UnionFind.union]
  split_ifs with h <;> simp [h]

theorem UnionFind.union_not_merged (uf : UnionFind) (a b : Nat)
    (h : (uf.union a b).1 = false) :
    (uf.union a b).2 = uf ∧ uf.find a = uf.find b := by
  simp only [UnionFind.union] at h ⊢
  split_ifs at h ⊢ with hr
  exact ⟨rfl, hr⟩

theorem UnionFind.find_eq_getElem (uf : UnionFind) (i : Nat)
    (hi : i < uf.root.length) : uf.find i = uf.root[i] := by
  unfold UnionFind.find
  rw [List.getD_eq_getElem?_getD, List.getElem?_eq_getElem hi]
  rfl

theorem UnionFind.union_merged_find (uf : UnionFind) (a b : Nat)
    (h : (uf.union a b).1 = true) (i : Nat) (hi : i < uf.root.length) :
    (uf.union a b).2.find i =
      if uf.find i = uf.find a then uf.find b else uf.find i := by
  have hne : uf.find a ≠ uf.find b := (uf.union_merged_iff a b).1 h
  simp only [UnionFind.union]
  rw [if_neg hne]
  have hlen : i < (uf.root.map
      (fun r => if r = uf.find a then uf.find b else r)).length := by
    simpa using hi
  rw [UnionFind.find_eq_getElem _ i (by simpa using hi)]
  rw [List.getElem_map]
  rw [UnionFind.find_eq_getElem uf i hi]

theorem UnionFind.done_find (uf : UnionFind) (h : uf.done = true)
    (i j : Nat) (hi : i < uf.root.length) (hj : j < uf.root.length) :
    uf.find i = uf.find j := by
  unfold UnionFind.find
  unfold UnionFind.done at h
  cases hr : uf.root with
  | nil => rw [hr] at hi; exact absurd hi (by simp)
  | cons r rs =>
    rw [hr] at h hi hj
    have hall : ∀ x ∈ rs, x = r := fun x hx => by
      simpa using List.all_eq_true.1 h x hx
    have key : ∀ k, k < rs.length + 1 → (r :: rs).getD k k = r := by
      intro k hk
      cases k with
      | zero => rfl
      | succ m =>
        have hm : m < rs.length := Nat.lt_of_succ_lt_succ hk
        have hg : (r :: rs).getD (m + 1) (m + 1) = rs.getD m (m + 1) := rfl
        rw [hg, List.getD_eq_getElem?_getD, List.getElem?_eq_getElem hm]
        simpa using hall rs[m] (List.getElem_mem hm)
    rw [key i (by simpa using hi), key j (by simpa using hj)]

theorem planar_inv (t : Towards) (h : planar t = true) : planar t.inv = true := by
  cases t <;> simp_all [planar, Towards.inv]

theorem Towards.inv_injective {a b : Towards} (h : a.inv = b.inv) : a = b := by
  cases a <;> cases b <;> simp_all [Towards.inv]

theorem setDir_index (nd : NetNode) (t : Towards) (ht : planar t = true)
    (p : Option Pointer) (d : Towards) :
    (nd.setDir t p).index d = if d = t then p else nd.index d := by
  cases t <;> cases d <;> simp_all [NetNode.setDir, NetNode.index, planar]

theorem connect_spec (nodes : List NetNode) (sIdx tIdx lay : Nat) (t : Towards)
    (hne : sIdx ≠ tIdx) (ndS ndT : NetNode)
    (hs : nodes[sIdx]? = some ndS) (htt : nodes[tIdx]? = some ndT) :
    NetTree.connect nodes sIdx tIdx lay t =
      some ((nodes.set sIdx (ndS.setDir t (some ⟨tIdx, lay⟩))).set tIdx
        (ndT.setDir t.inv (some ⟨sIdx, lay⟩))) := by
  unfold NetTree.connect setNodePtr
  rw [hs]
  dsimp only
  rw [List.getElem?_set_ne hne, htt]

theorem connect_getElem (nodes : List NetNode) (sIdx tIdx lay : Nat)
    (t : Towards) (hne : sIdx ≠ tIdx)
    (hbs : sIdx < nodes.length) (ndS ndT : NetNode)
    (hs : nodes[sIdx]? = some ndS) (htt : nodes[tIdx]? = some ndT)
    (nodes1 : List NetNode)
    (hc : NetTree.connect nodes sIdx tIdx lay t = some nodes1) :
    nodes1[sIdx]? = some (ndS.setDir t (some ⟨tIdx, lay⟩)) ∧
    nodes1[tIdx]? = some (ndT.setDir t.inv (some ⟨sIdx, lay⟩)) ∧
    (∀ i, i ≠ sIdx → i ≠ tIdx → nodes1[i]? = nodes[i]?) := by
  rw [connect_spec nodes sIdx tIdx lay t hne ndS ndT hs htt] at hc
  cases hc
  have hbt : tIdx < nodes.length := by
    by_contra hgt
    rw [List.getElem?_eq_none (by omega)] at htt
    exact Option.noConfusion htt
  refine ⟨?_, ?_, ?_⟩
  · rw [List.getElem?_set_ne (Ne.symm hne), List.getElem?_set_self (by simpa using hbs)]
  · rw [List.getElem?_set_self (by simpa using hbt)]
  · intro i his hit
    rw [List.getElem?_set_ne (Ne.symm hit), List.getElem?_set_ne (Ne.symm his)]

theorem linkStep_after_connect
    (nodes nodes1 : List NetNode) (sIdx tIdx lay : Nat) (t : Towards)
    (htp : planar t = true)
    (ndS ndT : NetNode)
    (hs : nodes[sIdx]? = some ndS) (htt : nodes[tIdx]? = some ndT)
    (hfs : ndS.index t = none) (hft : ndT.index t.inv = none)
    (g1 : nodes1[sIdx]? = some (ndS.setDir t (some ⟨tIdx, lay⟩)))
    (g2 : nodes1[tIdx]? = some (ndT.setDir t.inv (some ⟨sIdx, lay⟩)))
    (g3 : ∀ i, i ≠ sIdx → i ≠ tIdx → nodes1[i]? = nodes[i]?)
    (i j : Nat) :
    LinkStep nodes1 i j ↔
      LinkStep nodes i j ∨ (i = sIdx ∧ j = tIdx) ∨ (i = tIdx ∧ j = sIdx) := by
  constructor
  · rintro ⟨nd, d, p, h1, h2, h3⟩
    by_cases his : i = sIdx
    · subst his
      rw [g1] at h1
      cases h1
      rw [setDir_index ndS t htp _ d] at h2
      by_cases hdt : d = t
      · rw [if_pos hdt] at h2
        cases h2
        exact Or.inr (Or.inl ⟨rfl, h3.symm⟩)
      · rw [if_neg hdt] at h2
        exact Or.inl ⟨ndS, d, p, hs, h2, h3⟩
    · by_cases hit : i = tIdx
      · subst hit
        rw [g2] at h1
        cases h1
        rw [setDir_index ndT t.inv (planar_inv t htp) _ d] at h2
        by_cases hdt : d = t.inv
        · rw [if_pos hdt] at h2
          cases h2
          exact Or.inr (Or.inr ⟨rfl, h3.symm⟩)
        · rw [if_neg hdt] at h2
          exact Or.inl ⟨ndT, d, p, htt, h2, h3⟩
      · rw [g3 i his hit] at h1
        exact Or.inl ⟨nd, d, p, h1, h2, h3⟩
  · have newS : LinkStep nodes1 sIdx tIdx :=
      ⟨ndS.setDir t (some ⟨tIdx, lay⟩), t, ⟨tIdx, lay⟩, g1,
        by rw [setDir_index ndS t htp _ t, if_pos rfl], rfl⟩
    have newT : LinkStep nodes1 tIdx sIdx :=
      ⟨ndT.setDir t.inv (some ⟨sIdx, lay⟩), t.inv, ⟨sIdx, lay⟩, g2,
        by rw [setDir_index ndT t.inv (planar_inv t htp) _ t.inv, if_pos rfl], rfl⟩
    rintro (⟨nd, d, p, h1, h2, h3⟩ | ⟨hi, hj⟩ | ⟨hi, hj⟩)
    · by_cases his : i = sIdx
      · subst his
        rw [hs] at h1
        cases h1
        refine ⟨ndS.setDir t (some ⟨tIdx, lay⟩), d, p, g1, ?_, h3⟩
        rw [setDir_index ndS t htp _ d]
        by_cases hdt : d = t
        · subst hdt
          rw [h2] at hfs
          exact Option.noConfusion hfs
        · rw [if_neg hdt]
          exact h2
      · by_cases hit : i = tIdx
        · subst hit
          rw [htt] at h1
          cases h1
          refine ⟨ndT.setDir t.inv (some ⟨sIdx, lay⟩), d, p, g2, ?_, h3⟩
          rw [setDir_index ndT t.inv (planar_inv t htp) _ d]
          by_cases hdt : d = t.inv
          · subst hdt
            rw [h2] at hft
            exact Option.noConfusion hft
          · rw [if_neg hdt]
            exact h2
        · exact ⟨nd, d, p, (g3 i his hit).symm ▸ h1, h2, h3⟩
    · rw [hi, hj]
      exact newS
    · rw [hi, hj]
      exact newT

theorem slot_preserved
    (nodes nodes1 : List NetNode) (sIdx tIdx lay : Nat) (t : Towards)
    (htp : planar t = true)
    (ndS ndT : NetNode)
    (hs : nodes[sIdx]? = some ndS) (htt : nodes[tIdx]? = some ndT)
    (g1 : nodes1[sIdx]? = some (ndS.setDir t (some ⟨tIdx, lay⟩)))
    (g2 : nodes1[tIdx]? = some (ndT.setDir t.inv (some ⟨sIdx, lay⟩)))
    (g3 : ∀ i, i ≠ sIdx → i ≠ tIdx → nodes1[i]? = nodes[i]?)
    (j : Nat) (e : Towards) (md : NetNode) (q : Option Pointer)
    (hmd : nodes[j]? = some md) (hq : md.index e = q)
    (hjs : j = sIdx → e ≠ t) (hjt : j = tIdx → e ≠ t.inv) :
    ∃ md1, nodes1[j]? = some md1 ∧ md1.index e = q := by
  by_cases hj1 : j = sIdx
  · refine ⟨ndS.setDir t (some ⟨tIdx, lay⟩), by rw [hj1]; exact g1, ?_⟩
    rw [setDir_index ndS t htp _ e, if_neg (hjs hj1)]
    rw [hj1] at hmd
    rw [hs] at hmd
    rw [show md = ndS from (Option.some.inj hmd).symm] at hq
    exact hq
  · by_cases hj2 : j = tIdx
    · refine ⟨ndT.setDir t.inv (some ⟨sIdx, lay⟩), by rw [hj2]; exact g2, ?_⟩
      rw [setDir_index ndT t.inv (planar_inv t htp) _ e, if_neg (hjt hj2)]
      rw [hj2] at hmd
      rw [htt] at hmd
      rw [show md = ndT from (Option.some.inj hmd).symm] at hq
      exact hq
    · exact ⟨md, by rw [g3 j hj1 hj2]; exact hmd, hq⟩

theorem mirrored_after_connect
    (nodes nodes1 : List NetNode) (sIdx tIdx lay : Nat) (t : Towards)
    (htp : planar t = true)
    (ndS ndT : NetNode)
    (hs : nodes[sIdx]? = some ndS) (htt : nodes[tIdx]? = some ndT)
    (hfs : ndS.index t = none) (hft : ndT.index t.inv = none)
    (g1 : nodes1[sIdx]? = some (ndS.setDir t (some ⟨tIdx, lay⟩)))
    (g2 : nodes1[tIdx]? = some (ndT.setDir t.inv (some ⟨sIdx, lay⟩)))
    (g3 : ∀ i, i ≠ sIdx → i ≠ tIdx → nodes1[i]? = nodes[i]?)
    (hm : Mirrored nodes) : Mirrored nodes1 := by
  intro i j hgt d nd h1 h2
  by_cases his : i = sIdx
  · rw [his, g1] at h1
    rw [← Option.some.inj h1, setDir_index ndS t htp _ d] at h2
    by_cases hdt : d = t
    · rw [if_pos hdt] at h2
      have hinj := Option.some.inj h2
      have hj : tIdx = j := congrArg Pointer.index hinj
      have hl : lay = hgt := congrArg Pointer.height hinj
      refine ⟨ndT.setDir t.inv (some ⟨sIdx, lay⟩), by rw [← hj]; exact g2, ?_⟩
      rw [hdt, setDir_index ndT t.inv (planar_inv t htp) _ t.inv, if_pos rfl,
        his, ← hl]
    · rw [if_neg hdt] at h2
      have h2' : ndS.index d = some ⟨j, hgt⟩ := h2
      obtain ⟨md, hmd, hmde⟩ := hm sIdx j hgt d ndS hs h2'
      have hjs : j = sIdx → d.inv ≠ t := by
        intro hj hcontra
        rw [hj, hs] at hmd
        rw [← Option.some.inj hmd, hcontra] at hmde
        rw [hmde] at hfs
        exact Option.noConfusion hfs
      have hjt : j = tIdx → d.inv ≠ t.inv := by
        intro hj hcontra
        rw [hj, htt] at hmd
        rw [← Option.some.inj hmd, hcontra] at hmde
        rw [hmde] at hft
        exact Option.noConfusion hft
      obtain ⟨md1, hmd1, hq1⟩ := slot_preserved nodes nodes1 sIdx tIdx lay t
        htp ndS ndT hs htt g1 g2 g3 j d.inv md _ hmd hmde hjs hjt
      rw [his]
      exact ⟨md1, hmd1, hq1⟩
  · by_cases hit : i = tIdx
    · rw [hit, g2] at h1
      rw [← Option.some.inj h1, setDir_index ndT t.inv (planar_inv t htp) _ d]
        at h2
      by_cases hdt : d = t.inv
      · rw [if_pos hdt] at h2
        have hinj := Option.some.inj h2
        have hj : sIdx = j := congrArg Pointer.index hinj
        have hl : lay = hgt := congrArg Pointer.height hinj
        refine ⟨ndS.setDir t (some ⟨tIdx, lay⟩), by rw [← hj]; exact g1, ?_⟩
        rw [hdt, Towards.inv_inv t, setDir_index ndS t htp _ t, if_pos rfl,
          hit, ← hl]
      · rw [if_neg hdt] at h2
        have h2' : ndT.index d = some ⟨j, hgt⟩ := h2
        obtain ⟨md, hmd, hmde⟩ := hm tIdx j hgt d ndT htt h2'
        have hjs : j = sIdx → d.inv ≠ t := by
          intro hj hcontra
          rw [hj, hs] at hmd
          rw [← Option.some.inj hmd, hcontra] at hmde
          rw [hmde] at hfs
          exact Option.noConfusion hfs
        have hjt : j = tIdx → d.inv ≠ t.inv := by
          intro hj hcontra
          rw [hj, htt] at hmd
          rw [← Option.some.inj hmd, hcontra] at hmde
          rw [hmde] at hft
          exact Option.noConfusion hft
        obtain ⟨md1, hmd1, hq1⟩ := slot_preserved nodes nodes1 sIdx tIdx lay t
          htp ndS ndT hs htt g1 g2 g3 j d.inv md _ hmd hmde hjs hjt
        rw [hit]
        exact ⟨md1, hmd1, hq1⟩
    · rw [g3 i his hit] at h1
      obtain ⟨md, hmd, hmde⟩ := hm i j hgt d nd h1 h2
      have hjs : j = sIdx → d.inv ≠ t := by
        intro hj hcontra
        rw [hj, hs] at hmd
        rw [← Option.some.inj hmd, hcontra] at hmde
        rw [hmde] at hfs
        exact Option.noConfusion hfs
      have hjt : j = tIdx → d.inv ≠ t.inv := by
        intro hj hcontra
        rw [hj, htt] at hmd
        rw [← Option.some.inj hmd, hcontra] at hmde
        rw [hmde] at hft
        exact Option.noConfusion hft
      exact slot_preserved nodes nodes1 sIdx tIdx lay t htp ndS ndT hs htt
        g1 g2 g3 j d.inv md _ hmd hmde hjs hjt

theorem linkStep_symm (nodes : List NetNode) (hm : Mirrored nodes) (i j : Nat)
    (h : LinkStep nodes i j) : LinkStep nodes j i := by
  obtain ⟨nd, d, p, h1, h2, h3⟩ := h
  obtain ⟨md, hmd, hmde⟩ := hm i p.index p.height d nd h1 (by rw [h2])
  exact ⟨md, d.inv, ⟨i, p.height⟩, by rw [← h3]; exact hmd, hmde, rfl⟩

theorem reaches_symm (nodes : List NetNode) (hm : Mirrored nodes) (i j : Nat)
    (h : Reaches nodes i j) : Reaches nodes j i := by
  induction h with
  | refl => exact Relation.ReflTransGen.refl
  | tail _ hbc ih =>
    exact Relation.ReflTransGen.head (linkStep_symm nodes hm _ _ hbc) ih

theorem reaches_after_connect
    (nodes nodes1 : List NetNode) (sIdx tIdx : Nat)
    (hiff : ∀ i j, LinkStep nodes1 i j ↔
      LinkStep nodes i j ∨ (i = sIdx ∧ j = tIdx) ∨ (i = tIdx ∧ j = sIdx))
    (i j : Nat) :
    Reaches nodes1 i j ↔
      Reaches nodes i j ∨
      (Reaches nodes i sIdx ∧ Reaches nodes tIdx j) ∨
      (Reaches nodes i tIdx ∧ Reaches nodes sIdx j) := by
  constructor
  · intro h
    induction h with
    | refl => exact Or.inl Relation.ReflTransGen.refl
    | tail _ hkj ih =>
      rcases (hiff _ _).1 hkj with hold | ⟨hbs, hjt⟩ | ⟨hbt, hjs⟩
      · rcases ih with h1 | ⟨h1, h2⟩ | ⟨h1, h2⟩
        · exact Or.inl (h1.tail hold)
        · exact Or.inr (Or.inl ⟨h1, h2.tail hold⟩)
        · exact Or.inr (Or.inr ⟨h1, h2.tail hold⟩)
      · subst hbs
        subst hjt
        rcases ih with h1 | ⟨h1, _⟩ | ⟨h1, _⟩
        · exact Or.inr (Or.inl ⟨h1, Relation.ReflTransGen.refl⟩)
        · exact Or.inr (Or.inl ⟨h1, Relation.ReflTransGen.refl⟩)
        · exact Or.inl h1
      · subst hbt
        subst hjs
        rcases ih with h1 | ⟨h1, _⟩ | ⟨h1, _⟩
        · exact Or.inr (Or.inr ⟨h1, Relation.ReflTransGen.refl⟩)
        · exact Or.inl h1
        · exact Or.inr (Or.inr ⟨h1, Relation.ReflTransGen.refl⟩)
  · have mono : ∀ a b, Reaches nodes a b → Reaches nodes1 a b := by
      intro a b hab
      induction hab with
      | refl => exact Relation.ReflTransGen.refl
      | tail _ hbc ih => exact ih.tail ((hiff _ _).2 (Or.inl hbc))
    rintro (h | ⟨h1, h2⟩ | ⟨h1, h2⟩)
    · exact mono _ _ h
    · exact ((mono _ _ h1).tail
        ((hiff _ _).2 (Or.inr (Or.inl ⟨rfl, rfl⟩)))).trans (mono _ _ h2)
    · exact ((mono _ _ h1).tail
        ((hiff _ _).2 (Or.inr (Or.inr ⟨rfl, rfl⟩)))).trans (mono _ _ h2)

theorem merged_find_iff (x y a b : Nat) (hne : a ≠ b) :
    ((if x = a then b else x) = (if y = a then b else y)) ↔
      (x = y ∨ (x = a ∧ y = b) ∨ (x = b ∧ y = a)) := by
  by_cases h1 : x = a <;> by_cases h2 : y = a <;> simp [h1, h2] <;> omega

/-- The invariant maintained over the segment loop: list lengths are fixed,
the link graph is mirrored, and two junctions are in the same disjoint set
exactly when they reach each other through the links. -/
def BuildInv (n : Nat) (st : BuildState) : Prop :=
  st.nodes.length = n ∧
  st.uf.root.length = n ∧
  Mirrored st.nodes ∧
  (∀ i j, i < n → j < n → (st.uf.find i = st.uf.find j ↔ Reaches st.nodes i j))

theorem initialNodes_no_links (entries : List (Pair Nat × Option Nat)) :
    ∀ (i : Nat) (nd : NetNode), (initialNodes entries)[i]? = some nd →
      nd.up = none ∧ nd.down = none ∧ nd.left = none ∧ nd.right = none := by
  intro i nd h
  unfold initialNodes at h
  rw [List.getElem?_map] at h
  cases he : (buildPositionMap entries)[i]? with
  | none => rw [he] at h; exact Option.noConfusion h
  | some e =>
    rw [he] at h
    cases h
    exact ⟨rfl, rfl, rfl, rfl⟩

theorem buildInv_init (nodes0 : List NetNode)
    (hinit : ∀ (i : Nat) (nd : NetNode), nodes0[i]? = some nd →
      nd.up = none ∧ nd.down = none ∧ nd.left = none ∧ nd.right = none) :
    BuildInv nodes0.length ⟨nodes0, UnionFind.new nodes0.length, 0, false⟩ := by
  refine ⟨rfl, UnionFind.new_length _, ?_, ?_⟩
  · dsimp only
    intro i j hgt d nd h1 h2
    obtain ⟨hu, hd, hl, hr⟩ := hinit i nd h1
    cases d <;> simp [NetNode.index, hu, hd, hl, hr] at h2
  · dsimp only
    intro i j hi hj
    rw [UnionFind.new_find _ i hi, UnionFind.new_find _ j hj]
    constructor
    · rintro rfl
      exact Relation.ReflTransGen.refl
    · intro h
      induction h with
      | refl => rfl
      | tail _ hbc _ =>
        obtain ⟨nd, d, p, h1, h2, _⟩ := hbc
        obtain ⟨hu, hd, hl, hr⟩ := hinit _ nd h1
        cases d <;> simp [NetNode.index, hu, hd, hl, hr] at h2

theorem step_clash_mono (lookup : Pair Nat → Option Nat)
    (st st' : BuildState) (r : Route Nat)
    (h : NetTree.step lookup st r = some st') (hc : st.clash = true) :
    st'.clash = true := by
  rcases step_cases lookup st st' r h with
    ⟨t, _, _, rfl⟩ |
    ⟨t, sIdx, tIdx, _, _, _, _, ⟨_, rfl⟩ | ⟨_, nodes1, _, rfl⟩⟩
  · exact hc
  · exact hc
  · dsimp only
    rw [hc]
    rfl

theorem foldlM_clash_mono (lookup : Pair Nat → Option Nat) :
    ∀ (segs : List (Route Nat)) (st st' : BuildState),
      segs.foldlM (NetTree.step lookup) st = some st' →
      st.clash = true → st'.clash = true := by
  intro segs
  induction segs with
  | nil =>
    intro st st' h hc
    cases h
    exact hc
  | cons r rs ih =>
    intro st st' h hc
    rw [List.foldlM_cons] at h
    cases h1 : NetTree.step lookup st r with
    | none => rw [h1] at h; exact Option.noConfusion h
    | some st1 =>
      rw [h1] at h
      exact ih st1 st' (by simpa using h)
        (step_clash_mono lookup st st1 r h1 hc)

theorem hasSlot_eq_false (nodes : List NetNode) (i : Nat) (d : Towards)
    (nd : NetNode) (hnd : nodes[i]? = some nd) (h : hasSlot nodes i d = false) :
    nd.index d = none := by
  unfold hasSlot at h
  rw [hnd] at h
  dsimp only at h
  cases hx : nd.index d with
  | none => rfl
  | some p =>
    rw [hx] at h
    exact absurd h (by simp)

theorem step_preserves_inv (n : Nat) (lookup : Pair Nat → Option Nat)
    (hlk : ∀ (p : Pair Nat) (i : Nat), lookup p = some i → i < n)
    (st st' : BuildState) (r : Route Nat)
    (h : NetTree.step lookup st r = some st')
    (hcl : st'.clash = false)
    (inv : BuildInv n st) : BuildInv n st' := by
  obtain ⟨hlen, huflen, hmir, hreach⟩ := inv
  rcases step_cases lookup st st' r h with
    ⟨t, ht, hp, rfl⟩ |
    ⟨t, sIdx, tIdx, ht, hp, hs, htt, ⟨hm, rfl⟩ | ⟨hm, nodes1, hc, rfl⟩⟩
  · exact ⟨hlen, huflen, hmir, hreach⟩
  · obtain ⟨hufeq, _⟩ := st.uf.union_not_merged sIdx tIdx hm
    exact ⟨hlen, by dsimp only; rw [hufeq]; exact huflen, hmir,
      by dsimp only; rw [hufeq]; exact hreach⟩
  · have hsn : sIdx < n := hlk _ _ hs
    have htn : tIdx < n := hlk _ _ htt
    have hsl : sIdx < st.nodes.length := by omega
    have htl : tIdx < st.nodes.length := by omega
    have hcl3 : st.clash = false ∧ hasSlot st.nodes sIdx t = false ∧
        hasSlot st.nodes tIdx t.inv = false := by
      dsimp only at hcl
      rcases Bool.or_eq_false_iff.1 hcl with ⟨h12, h3⟩
      rcases Bool.or_eq_false_iff.1 h12 with ⟨h1, h2⟩
      exact ⟨h1, h2, h3⟩
    obtain ⟨-, hslotS, hslotT⟩ := hcl3
    have hndS : st.nodes[sIdx]? = some st.nodes[sIdx] :=
      List.getElem?_eq_getElem hsl
    have hndT : st.nodes[tIdx]? = some st.nodes[tIdx] :=
      List.getElem?_eq_getElem htl
    have hfs := hasSlot_eq_false st.nodes sIdx t _ hndS hslotS
    have hft := hasSlot_eq_false st.nodes tIdx t.inv _ hndT hslotT
    have hfind : st.uf.find sIdx ≠ st.uf.find tIdx :=
      (st.uf.union_merged_iff _ _).1 hm
    have hne : sIdx ≠ tIdx := fun he => hfind (by rw [he])
    obtain ⟨g1, g2, g3⟩ := connect_getElem st.nodes sIdx tIdx r.source.lay t
      hne hsl _ _ hndS hndT nodes1 hc
    have hiff := linkStep_after_connect st.nodes nodes1 sIdx tIdx
      r.source.lay t hp _ _ hndS hndT hfs hft g1 g2 g3
    have hmir1 : Mirrored nodes1 := mirrored_after_connect st.nodes nodes1
      sIdx tIdx r.source.lay t hp _ _ hndS hndT hfs hft g1 g2 g3 hmir
    refine ⟨?_, ?_, hmir1, ?_⟩
    · dsimp only
      rw [connect_length _ _ _ _ _ _ hc]
      exact hlen
    · dsimp only
      rw [st.uf.union_length]
      exact huflen
    · dsimp only
      intro i j hi hj
      rw [st.uf.union_merged_find sIdx tIdx hm i (by omega),
        st.uf.union_merged_find sIdx tIdx hm j (by omega),
        merged_find_iff _ _ _ _ hfind,
        reaches_after_connect st.nodes nodes1 sIdx tIdx hiff i j]
      have R1 := hreach i j hi hj
      have R2 := hreach i sIdx hi hsn
      have R3 := hreach j tIdx hj htn
      have R4 := hreach i tIdx hi htn
      have R5 := hreach j sIdx hj hsn
      have S1 : Reaches st.nodes tIdx j ↔ Reaches st.nodes j tIdx :=
        ⟨reaches_symm _ hmir _ _, reaches_symm _ hmir _ _⟩
      have S2 : Reaches st.nodes sIdx j ↔ Reaches st.nodes j sIdx :=
        ⟨reaches_symm _ hmir _ _, reaches_symm _ hmir _ _⟩
      rw [R1, R2, R3, R4, R5, S1, S2]

theorem foldlM_preserves_inv (n : Nat) (lookup : Pair Nat → Option Nat)
    (hlk : ∀ (p : Pair Nat) (i : Nat), lookup p = some i → i < n) :
    ∀ (segs : List (Route Nat)) (st st' : BuildState),
      BuildInv n st →
      segs.foldlM (NetTree.step lookup) st = some st' →
      st'.clash = false → BuildInv n st' := by
  intro segs
  induction segs with
  | nil =>
    intro st st' hinv h _
    cases h
    exact hinv
  | cons r rs ih =>
    intro st st' hinv h hcl
    rw [List.foldlM_cons] at h
    cases h1 : NetTree.step lookup st r with
    | none => rw [h1] at h; exact Option.noConfusion h
    | some st1 =>
      rw [h1] at h
      have h' : rs.foldlM (NetTree.step lookup) st1 = some st' := by simpa using h
      have hc1 : st1.clash = false := by
        cases hbb : st1.clash with
        | false => rfl
        | true =>
          have h2 := foldlM_clash_mono lookup rs st1 st' h' hbb
          rw [h2] at hcl
          exact Bool.noConfusion hcl
      exact ih st1 st'
        (step_preserves_inv n lookup hlk st st1 r h1 hc1 hinv) h' hcl

theorem positionToIdx_lt (nodes : List NetNode) (p : Pair Nat) (i : Nat)
    (h : positionToIdx nodes p = some i) : i < nodes.length := by
  unfold positionToIdx at h
  exact (List.findIdx?_eq_some_iff_findIdx_eq.1 h).1

/-- C3 (amended): for every input on which the debug build of
`NetTree::new` returns (the disjoint-set reports full connectivity) and in
which no segment assigns a directional slot that an earlier segment already
set (the ghost `clash` flag stays false), the resulting link graph is
mirrored — every directional pointer from junction `i` to junction `j` has
the inverse-direction pointer from `j` back to `i` with the same layer —
and fully connected: a walk over the links from any junction reaches every
other junction. -/
theorem tree_invariant (conn_pins : List Nat) (segments : List (Route Nat))
    (pin_position : Nat → Option (Pair Nat)) (st : BuildState)
    (h : NetTree.newCore conn_pins segments pin_position = some st)
    (hdone : st.uf.done = true) (hcnt : st.ufCnt = 1)
    (hclash : st.clash = false) :
    Mirrored st.nodes ∧
      ∀ i j, i < st.nodes.length → j < st.nodes.length →
        Reaches st.nodes i j := by
  unfold NetTree.newCore at h
  cases hp : pinEntriesOf pin_position conn_pins with
  | none => rw [hp] at h; exact Option.noConfusion h
  | some pes =>
    rw [hp] at h
    dsimp only at h
    have base := buildInv_init (initialNodes (segmentEntries segments ++ pes))
      (initialNodes_no_links _)
    have inv' := foldlM_preserves_inv
      (initialNodes (segmentEntries segments ++ pes)).length
      (positionToIdx (initialNodes (segmentEntries segments ++ pes)))
      (fun p i hpi => positionToIdx_lt _ p i hpi)
      segments _ st base h hclash
    obtain ⟨hlen, huflen, hmir, hreach⟩ := inv'
    refine ⟨hmir, fun i j hi hj => ?_⟩
    rw [hlen] at hi hj
    exact (hreach i j hi hj).1
      (st.uf.done_find hdone i j (by omega) (by omega))

/-- C3 witness: the square example satisfies all hypotheses (debug
assertions pass, no slot clash) and its link graph is mirrored, with
junction 0 reaching junction 3. -/
theorem tree_invariant_witness :
    (NetTree.newCore [] sqSegs (fun _ => none) = some sqSt ∧
      sqSt.uf.done = true ∧ sqSt.ufCnt = 1 ∧ sqSt.clash = false) ∧
    Mirrored sqSt.nodes ∧ Reaches sqSt.nodes 0 3 :=
  ⟨⟨by decide, by decide, by decide, by decide⟩,
   (tree_invariant [] sqSegs (fun _ => none) sqSt (by decide) (by decide)
      (by decide) (by decide)).1,
   (tree_invariant [] sqSegs (fun _ => none) sqSt (by decide) (by decide)
      (by decide) (by decide)).2 0 3 (by decide) (by decide)⟩
